import Mathlib

/-!
Verification of the announcement-processing pipeline (ingestion, normalization,
batch scoring, merge, CSV export) against its natural-language specification.
The definitions below are a shallow embedding of the application code: records,
the per-batch scoring merge, the sequential batch loop over the shared record
collection, the JSON ingestion with its repair heuristic, the HTML cleaning and
word counting, the CSV exporter, and the title/community/author filter.
Numeric score values are modelled as exact rationals.
-/

namespace RaizEducacao

/-- Record status, from the string union
`'Aguardando IA...' | 'Analisado' | 'Falha na Análise'` in `types.ts`
(Pending / Scored / Failed). -/
inductive Status where
  | aguardando
  | analisado
  | falha
deriving DecidableEq, Repr

/-- The literal status strings used by the code (for CSV stringification). -/
def statusText : Status → String
  | .aguardando => "Aguardando IA..."
  | .analisado => "Analisado"
  | .falha => "Falha na Análise"

/-- A normalized record as produced by `processFile` (before scoring):
`_id, title, community, author, text_clean, word_count`. -/
structure ParsedRecord where
  _id : String
  title : String
  community : String
  author : String
  text_clean : String
  word_count : Nat
deriving DecidableEq, Repr

/-- The full record shape `CleanedRecord` of `types.ts`: the parsed base fields
plus the optional six dimension scores, comment, quality score, and status. -/
structure CleanedRecord where
  _id : String
  title : String
  community : String
  author : String
  text_clean : String
  word_count : Nat
  clareza : Option ℚ
  empatia : Option ℚ
  coerencia : Option ℚ
  formalidade : Option ℚ
  eficacia : Option ℚ
  linguistica : Option ℚ
  comentario : Option String
  QualityScore : Option ℚ
  status : Status
deriving DecidableEq, Repr

/-- One item of the external scorer's parsed response (`ApiResponseItem`):
an id, the six dimension scores, and a comment. -/
structure ApiResponseItem where
  id : String
  clareza : ℚ
  empatia : ℚ
  coerencia : ℚ
  formalidade : ℚ
  eficacia : ℚ
  linguistica : ℚ
  comentario : String
deriving DecidableEq, Repr

/-- The fixed dimension weights, in the insertion order of the `weights`
object literal in the code. -/
def weights : List (String × ℚ) :=
  [("clareza", 0.20), ("empatia", 0.20), ("coerencia", 0.20),
   ("formalidade", 0.15), ("eficacia", 0.15), ("linguistica", 0.10)]

/-- Dimension lookup `result[key as keyof typeof weights]` on a response item. -/
def dimValue (res : ApiResponseItem) (key : String) : ℚ :=
  if key = "clareza" then res.clareza
  else if key = "empatia" then res.empatia
  else if key = "coerencia" then res.coerencia
  else if key = "formalidade" then res.formalidade
  else if key = "eficacia" then res.eficacia
  else if key = "linguistica" then res.linguistica
  else 0

/-- The weighted aggregate `Object.entries(weights).reduce((acc, [key, weight])
=> acc + result[key] * weight, 0)`. -/
def qualityScoreOf (res : ApiResponseItem) : ℚ :=
  weights.foldl (fun acc kw => acc + dimValue res kw.1 * kw.2) 0

/-- Rounding to two decimal places, `parseFloat(x.toFixed(2))`, modelled
exactly on `ℚ` as round-to-nearest of the hundredths. -/
def roundTo2 (q : ℚ) : ℚ := (round (q * 100) : ℤ) / 100

/-- Promotion of a parsed record to the shared collection with
`status: 'Aguardando IA...'` (Pending) and no scores yet. -/
def pendingOf (r : ParsedRecord) : CleanedRecord :=
  { _id := r._id, title := r.title, community := r.community, author := r.author,
    text_clean := r.text_clean, word_count := r.word_count,
    clareza := none, empatia := none, coerencia := none, formalidade := none,
    eficacia := none, linguistica := none, comentario := none,
    QualityScore := none, status := .aguardando }

/-- The failure result `{ ...record, status: 'Falha na Análise', QualityScore: 0 }`. -/
def failRecord (r : ParsedRecord) : CleanedRecord :=
  { pendingOf r with status := .falha, QualityScore := some 0 }

/-- The success result `{ ...record, ...result, QualityScore:
parseFloat(qualityScore.toFixed(2)), status: 'Analisado' }`: the response
item's dimensions and comment are merged onto the record. -/
def scoredRecord (r : ParsedRecord) (res : ApiResponseItem) : CleanedRecord :=
  { pendingOf r with
    clareza := some res.clareza, empatia := some res.empatia,
    coerencia := some res.coerencia, formalidade := some res.formalidade,
    eficacia := some res.eficacia, linguistica := some res.linguistica,
    comentario := some res.comentario,
    QualityScore := some (roundTo2 (qualityScoreOf res)),
    status := .analisado }

/-- Lookup in `resultMap = new Map(analysisResults.map(res => [res.id, res]))`:
a JS `Map` built from a list keeps the last entry for a duplicated key. -/
def resultLookup (items : List ApiResponseItem) (id : String) : Option ApiResponseItem :=
  items.foldl (fun acc it => if it.id = id then some it else acc) none

/-- The fate of one record of a batch given that batch's response:
`none` models the external call throwing or its response failing to parse
(the `catch` branch); `some items` the parsed response array. -/
def analyzeOne (r : ParsedRecord) (resp : Option (List ApiResponseItem)) : CleanedRecord :=
  match resp with
  | none => failRecord r
  | some items =>
    match resultLookup items r._id with
    | some res => scoredRecord r res
    | none => failRecord r

/-- The batch scorer `analyzeQualityBatch`: on success each record is looked up
in the response map and scored or failed individually; on failure (`catch`)
the whole batch is failed. -/
def analyzeQualityBatch (batch : List ParsedRecord)
    (resp : Option (List ApiResponseItem)) : List CleanedRecord :=
  match resp with
  | none => batch.map (fun record => failRecord record)
  | some items => batch.map (fun record => analyzeOne record (some items))

/-- Character-list test that the first list starts with the second. -/
def startsWithChars : List Char → List Char → Bool
  | _, [] => true
  | [], _ :: _ => false
  | c :: cs, d :: ds => c == d && startsWithChars cs ds

/-- Character-list substring containment (JS `String.prototype.includes`). -/
def containsChars : List Char → List Char → Bool
  | [], needle => needle.isEmpty
  | c :: cs, needle => startsWithChars (c :: cs) needle || containsChars cs needle

/-- JS `haystack.includes(needle)` on strings. -/
def strIncludes (hay needle : String) : Bool := containsChars hay.data needle.data

/-- JS `String.prototype.toLowerCase`, modelled as a character-wise map. -/
def jsToLower (s : String) : String := ⟨s.data.map Char.toLower⟩

/-- The three filter text inputs of the app (`filters` state). -/
structure Filters where
  title : String
  community : String
  author : String
deriving DecidableEq, Repr

/-- The filtering effect in the app: lowercase the three filter strings and
keep the records whose lowercased title, community and author contain the
respective filter as a substring. -/
def filterRecords (f : Filters) (cleanedData : List CleanedRecord) : List CleanedRecord :=
  cleanedData.filter (fun item =>
    strIncludes (jsToLower item.title) (jsToLower f.title) &&
    strIncludes (jsToLower item.community) (jsToLower f.community) &&
    strIncludes (jsToLower item.author) (jsToLower f.author))

/-- The fixed batch size of the scheduler (`const BATCH_SIZE = 10`). -/
def BATCH_SIZE : Nat := 10

/-- Partition of the normalized records into contiguous batches of
`BATCH_SIZE` (`cleanedResults.slice(i, i + BATCH_SIZE)` in the loop). -/
def chunkBatches : List ParsedRecord → List (List ParsedRecord)
  | [] => []
  | x :: xs =>
    (x :: xs.take (BATCH_SIZE - 1)) :: chunkBatches (xs.drop (BATCH_SIZE - 1))
termination_by l => l.length
decreasing_by simp [List.length_drop]; omega

/-- The JS object spread `{ ...newData[index], ...analyzedRecord }`: fields
present on the analyzed record overwrite, fields absent on it (`none`, the
dimension scores of a failed record) keep the old entry's values. -/
def mergeRecords (old new : CleanedRecord) : CleanedRecord :=
  { _id := new._id, title := new.title, community := new.community,
    author := new.author, text_clean := new.text_clean,
    word_count := new.word_count,
    clareza := new.clareza.elim old.clareza some,
    empatia := new.empatia.elim old.empatia some,
    coerencia := new.coerencia.elim old.coerencia some,
    formalidade := new.formalidade.elim old.formalidade some,
    eficacia := new.eficacia.elim old.eficacia some,
    linguistica := new.linguistica.elim old.linguistica some,
    comentario := new.comentario.elim old.comentario some,
    QualityScore := new.QualityScore.elim old.QualityScore some,
    status := new.status }

/-- Merge of one analyzed record into the shared collection:
`newData.findIndex(item => item._id === analyzedRecord._id)` followed by the
in-place spread update of that entry; no match leaves the collection alone. -/
def updateById : List CleanedRecord → CleanedRecord → List CleanedRecord
  | [], _ => []
  | x :: xs, rec =>
    if x._id = rec._id then mergeRecords x rec :: xs else x :: updateById xs rec

/-- Merge of a whole analyzed batch, `analyzedBatch.forEach(...)`. -/
def mergeBatch (data : List CleanedRecord) (analyzedBatch : List CleanedRecord) :
    List CleanedRecord :=
  analyzedBatch.foldl updateById data

/-- The sequential batch loop of `handleProcessClick`: one external call per
batch, in order, each batch's analyzed records merged into the shared
collection before the next batch is issued. `responses j` is the external
scorer's outcome for the `j`-th batch. -/
def runFrom (responses : Nat → Option (List ApiResponseItem)) :
    List CleanedRecord → List (List ParsedRecord) → Nat → List CleanedRecord
  | data, [], _ => data
  | data, b :: bs, i =>
    runFrom responses (mergeBatch data (analyzeQualityBatch b (responses i))) bs (i + 1)

/-- The whole scoring run: promote every record to Pending, then process the
batches sequentially from batch index 0. -/
def runBatches (records : List ParsedRecord)
    (responses : Nat → Option (List ApiResponseItem)) : List CleanedRecord :=
  runFrom responses (records.map pendingOf) (chunkBatches records) 0

/-- The shared collection after the first `k` batches have been merged. -/
def stateAfter (records : List ParsedRecord)
    (responses : Nat → Option (List ApiResponseItem)) (k : Nat) : List CleanedRecord :=
  runFrom responses (records.map pendingOf) ((chunkBatches records).take k) 0

/-- The expected shape of the collection after the first `k` batches: the
records of already-processed batches carry their per-record analysis outcome,
the rest are still Pending. Proven equal to `stateAfter` below. -/
def expectedPartial (responses : Nat → Option (List ApiResponseItem)) :
    List ParsedRecord → Nat → Nat → List CleanedRecord
  | records, _, 0 => records.map pendingOf
  | [], _, _ + 1 => []
  | x :: xs, i, k + 1 =>
    ((x :: xs.take (BATCH_SIZE - 1)).map (fun r => analyzeOne r (responses i))) ++
      expectedPartial responses (xs.drop (BATCH_SIZE - 1)) (i + 1) k
termination_by records _ _ => records.length
decreasing_by simp [List.length_drop]; omega

/-- The `processingStep` state machine of the app. -/
inductive ProcessingStep where
  | idle
  | cleaning
  | analyzing
  | done
deriving DecidableEq, Repr

/-- The observable app state once a run has finished: the step the pipeline
was left in, the surfaced error, the shared record collection, and the
progress counter. -/
structure AppState where
  step : ProcessingStep
  error : Option String
  cleanedData : List CleanedRecord
  processed : Nat
  total : Nat
deriving Repr

/-- The outcome of `handleProcessClick` after a click, given the result of
`processFile` (ingestion + normalization) and the per-batch scorer outcomes:
a rejected promise is caught and leaves `idle`; an empty cleaned dataset sets
the error message and `done` before any scoring; otherwise the batch loop
runs to completion and the step is `done`. -/
def handleProcessClick (parseResult : Except String (List ParsedRecord))
    (responses : Nat → Option (List ApiResponseItem)) : AppState :=
  match parseResult with
  | .error msg =>
    { step := .idle, error := some msg, cleanedData := [], processed := 0, total := 0 }
  | .ok cleanedResults =>
    if cleanedResults.isEmpty then
      { step := .done, error := some "Nenhum registro válido encontrado no arquivo.",
        cleanedData := [], processed := 0, total := 0 }
    else
      { step := .done, error := none,
        cleanedData := runBatches cleanedResults responses,
        processed := cleanedResults.length, total := cleanedResults.length }

/-- A parsed JSON value, the loosely-typed data `JSON.parse` yields. -/
inductive JsonValue where
  | null
  | bool (b : Bool)
  | num (q : ℚ)
  | str (s : String)
  | arr (items : List JsonValue)
  | obj (fields : List (String × JsonValue))

/-- The JS test `typeof item === 'object' && item !== null` used by
`processFile` to keep an array element: JSON objects and arrays both have
`typeof === 'object'`; null, booleans, numbers and strings do not pass. -/
def isObjectShaped : JsonValue → Bool
  | .arr _ => true
  | .obj _ => true
  | _ => false

/-- JS property access on a parsed JSON object: for duplicate keys the later
one wins, as in `JSON.parse`. -/
def objLookup (fields : List (String × JsonValue)) (key : String) : Option JsonValue :=
  fields.foldl (fun acc kv => if kv.1 = key then some kv.2 else acc) none

/-- A string property with the `|| ''` defaulting of the code: a missing or
non-string field reads as the empty string (the modelled input profile keeps
these fields strings when present). -/
def getStrField (fields : List (String × JsonValue)) (key : String) : String :=
  match objLookup fields key with
  | some (.str s) => s
  | _ => ""

/-- The named properties of an array element: only object elements have any. -/
def recordFields : JsonValue → List (String × JsonValue)
  | .obj f => f
  | _ => []

/-- The whitespace class of the JS regex `\s` (also what `trim` strips). -/
def isWsChar (c : Char) : Bool :=
  c = ' ' || c = '\t' || c = '\n' || c = '\r' ||
  c.toNat = 11 || c.toNat = 12 || c.toNat = 0xa0 || c.toNat = 0x1680 ||
  (0x2000 ≤ c.toNat && c.toNat ≤ 0x200a) || c.toNat = 0x2028 || c.toNat = 0x2029 ||
  c.toNat = 0x202f || c.toNat = 0x205f || c.toNat = 0x3000 || c.toNat = 0xfeff

/-- The characters that may follow `<` to actually open markup in the HTML
tokenizer: a tag name letter, `/` (end tag), `!` (declaration or comment),
`?` (bogus comment). Any other character leaves the `<` as literal text. -/
def isTagStart (c : Char) : Bool := c.isAlpha || c = '/' || c = '!' || c = '?'

/-- Models the DOM text extraction of `tempDiv.innerHTML = s; tempDiv.textContent`:
markup tags are dropped (structure removed, text kept). As in the HTML
tokenizer, `<` opens a tag only when followed by a tag-start character;
otherwise it is emitted as literal text (so is a bare `>`). The flag is true
while inside a tag. -/
def stripTagsAux : Bool → List Char → List Char
  | _, [] => []
  | true, c :: rest =>
    if c = '>' then stripTagsAux false rest else stripTagsAux true rest
  | false, c :: rest =>
    if c = '<' then
      match rest with
      | [] => [c]
      | d :: _ =>
        if isTagStart d then stripTagsAux true rest
        else c :: stripTagsAux false rest
    else c :: stripTagsAux false rest

/-- Models the DOM character-reference decoding in text nodes, in a single
left-to-right pass (no re-decoding of the output, as in the DOM): the common
named references `&nbsp;`, `&lt;`, `&gt;`, `&amp;`, `&quot;`. In particular
`&lt;` decodes to a literal `<` in the extracted text. -/
def decodeEntities : List Char → List Char
  | '&' :: 'n' :: 'b' :: 's' :: 'p' :: ';' :: rest =>
    Char.ofNat 0xa0 :: decodeEntities rest
  | '&' :: 'l' :: 't' :: ';' :: rest => '<' :: decodeEntities rest
  | '&' :: 'g' :: 't' :: ';' :: rest => '>' :: decodeEntities rest
  | '&' :: 'a' :: 'm' :: 'p' :: ';' :: rest => '&' :: decodeEntities rest
  | '&' :: 'q' :: 'u' :: 'o' :: 't' :: ';' :: rest => '"' :: decodeEntities rest
  | c :: rest => c :: decodeEntities rest
  | [] => []

/-- The collapse `.replace(/\s+/g, ' ')`: each maximal run of whitespace
becomes one ordinary space. The flag remembers that the current run has
already emitted its space. -/
def collapseWsAux : Bool → List Char → List Char
  | _, [] => []
  | prevWs, c :: rest =>
    if isWsChar c then
      if prevWs then collapseWsAux true rest else ' ' :: collapseWsAux true rest
    else c :: collapseWsAux false rest

/-- The second replace `.replace(/\xa0/g, ' ')` of the code. -/
def replaceNbsp (cs : List Char) : List Char :=
  cs.map (fun c => if c.toNat = 0xa0 then ' ' else c)

/-- JS `String.prototype.trim`: strip leading and trailing whitespace. -/
def jsTrimChars (cs : List Char) : List Char :=
  ((cs.dropWhile isWsChar).reverse.dropWhile isWsChar).reverse

/-- The normalizer `cleanHtmlAndNormalize`: extract the text from the markup,
then `text.replace(/\s+/g, ' ').replace(/\xa0/g, ' ').trim()`, in the source's
order of operations. -/
def cleanHtmlAndNormalize (htmlString : String) : String :=
  ⟨jsTrimChars (replaceNbsp (collapseWsAux false
    (decodeEntities (stripTagsAux false htmlString.data))))⟩

/-- Split a character list at every character satisfying `p`, keeping empty
segments (the behaviour of JS `split` with a single-character separator when
`p` matches exactly that character). -/
def splitOnPred (p : Char → Bool) : List Char → List Char → List (List Char)
  | cur, [] => [cur.reverse]
  | cur, c :: rest =>
    if p c then cur.reverse :: splitOnPred p [] rest
    else splitOnPred p (c :: cur) rest

/-- The code's word counter: `cleanText ? cleanText.split(' ').length : 0`. -/
def wordCount (cleanText : String) : Nat :=
  if cleanText = "" then 0
  else (splitOnPred (fun c => c = ' ') [] cleanText.data).length

/-- The non-empty whitespace-delimited tokens of a character list (the
specification's notion of words). -/
def wsTokens (cs : List Char) : List (List Char) :=
  (splitOnPred isWsChar [] cs).filter (fun t => ¬t.isEmpty)

/-- One normalized record from one kept array element, mirroring the mapper
of `processFile`: id from `_id.$oid` when present (else the synthesized fresh
id), `title`/`community` with `|| ''`, author from `author?.name || ''`, the
cleaned description and its word count. -/
def buildRecord (freshId : String) (fields : List (String × JsonValue)) : ParsedRecord :=
  let cleanText := cleanHtmlAndNormalize (getStrField fields "description")
  { _id :=
      (match objLookup fields "_id" with
       | some (.obj idFields) =>
         match objLookup idFields "$oid" with
         | some (.str s) => if s = "" then freshId else s
         | _ => freshId
       | _ => freshId),
    title := getStrField fields "title",
    community := getStrField fields "community",
    author :=
      (match objLookup fields "author" with
       | some (.obj aFields) => getStrField aFields "name"
       | _ => ""),
    text_clean := cleanText,
    word_count := wordCount cleanText }

/-- The map-and-filter of `processFile`: non-object elements map to `null`
and are filtered out; object elements become normalized records. `freshIds`
models the `Date.now()-Math.random()` synthesis, indexed by element
position. -/
def processedRecords (freshIds : Nat → String) : List JsonValue → Nat → List ParsedRecord
  | [], _ => []
  | v :: vs, idx =>
    if isObjectShaped v then
      buildRecord (freshIds idx) (recordFields v) :: processedRecords freshIds vs (idx + 1)
    else processedRecords freshIds vs (idx + 1)

/-- JSON insignificant whitespace (RFC 8259): space, tab, LF, CR. -/
def skipJsonWs (cs : List Char) : List Char :=
  cs.dropWhile (fun c => c = ' ' || c = '\n' || c = '\t' || c = '\r')

/-- Leading decimal digits of a character list, and the remainder. -/
def takeDigits : List Char → List Char × List Char
  | [] => ([], [])
  | c :: rest =>
    if c.isDigit then
      let (ds, r) := takeDigits rest
      (c :: ds, r)
    else ([], c :: rest)

/-- Numeric value of a digit run. -/
def digitsToNat (ds : List Char) : Nat :=
  ds.foldl (fun a c => a * 10 + (c.toNat - 48)) 0

/-- A JSON number (optional minus, integer part, optional fraction; the
exponent form does not occur in the modelled inputs). -/
def parseJsonNumber (cs : List Char) : Option (ℚ × List Char) :=
  let (neg, cs1) :=
    match cs with
    | c :: r => if c = '-' then (true, r) else (false, cs)
    | [] => (false, ([] : List Char))
  match takeDigits cs1 with
  | ([], _) => none
  | (ds, cs2) =>
    let intPart : ℚ := (digitsToNat ds : ℚ)
    match cs2 with
    | c :: r =>
      if c = '.' then
        match takeDigits r with
        | ([], _) => none
        | (fs, cs3) =>
          let q := intPart + (digitsToNat fs : ℚ) / ((10 : ℚ) ^ fs.length)
          some (if neg then -q else q, cs3)
      else some (if neg then -intPart else intPart, cs2)
    | [] => some (if neg then -intPart else intPart, [])

/-- The body of a JSON string after its opening quote, with the common
escapes. -/
def parseJsonString (acc : List Char) : List Char → Option (String × List Char)
  | [] => none
  | '"' :: rest => some (⟨acc.reverse⟩, rest)
  | '\\' :: e :: rest =>
    if e = '"' then parseJsonString ('"' :: acc) rest
    else if e = '\\' then parseJsonString ('\\' :: acc) rest
    else if e = '/' then parseJsonString ('/' :: acc) rest
    else if e = 'n' then parseJsonString ('\n' :: acc) rest
    else if e = 't' then parseJsonString ('\t' :: acc) rest
    else if e = 'r' then parseJsonString ('\r' :: acc) rest
    else none
  | ['\\'] => none
  | c :: rest => parseJsonString (c :: acc) rest

mutual

/-- A JSON value (fuel-bounded recursive descent; `jsonParse` supplies ample
fuel). -/
def parseJsonValue : Nat → List Char → Option (JsonValue × List Char)
  | 0, _ => none
  | fuel + 1, cs =>
    match skipJsonWs cs with
    | 'n' :: 'u' :: 'l' :: 'l' :: r => some (.null, r)
    | 't' :: 'r' :: 'u' :: 'e' :: r => some (.bool true, r)
    | 'f' :: 'a' :: 'l' :: 's' :: 'e' :: r => some (.bool false, r)
    | '"' :: r => (parseJsonString [] r).map (fun p => (.str p.1, p.2))
    | c :: r =>
      if c = '\x7b' then
        match skipJsonWs r with
        | '\x7d' :: r2 => some (.obj [], r2)
        | r' => (parseJsonMembers fuel r').map (fun p => (.obj p.1, p.2))
      else if c = '[' then
        match skipJsonWs r with
        | ']' :: r2 => some (.arr [], r2)
        | r' => (parseJsonElems fuel r').map (fun p => (.arr p.1, p.2))
      else (parseJsonNumber (c :: r)).map (fun p => (.num p.1, p.2))
    | [] => none

/-- One or more comma-separated array elements, up to the closing bracket. -/
def parseJsonElems : Nat → List Char → Option (List JsonValue × List Char)
  | 0, _ => none
  | fuel + 1, cs =>
    match parseJsonValue fuel cs with
    | none => none
    | some (v, r) =>
      match skipJsonWs r with
      | ',' :: r2 => (parseJsonElems fuel r2).map (fun p => (v :: p.1, p.2))
      | ']' :: r2 => some ([v], r2)
      | _ => none

/-- One or more comma-separated object members, up to the closing brace. -/
def parseJsonMembers : Nat → List Char → Option (List (String × JsonValue) × List Char)
  | 0, _ => none
  | fuel + 1, cs =>
    match skipJsonWs cs with
    | '"' :: r =>
      match parseJsonString [] r with
      | none => none
      | some (key, r1) =>
        match skipJsonWs r1 with
        | ':' :: r2 =>
          match parseJsonValue fuel r2 with
          | none => none
          | some (v, r3) =>
            match skipJsonWs r3 with
            | ',' :: r4 => (parseJsonMembers fuel r4).map (fun p => ((key, v) :: p.1, p.2))
            | '\x7d' :: r4 => some ([(key, v)], r4)
            | _ => none
        | _ => none
    | _ => none

end

/-- Strict parsing `JSON.parse(content)`: a single JSON value with nothing but
whitespace after it. -/
def jsonParse (s : String) : Option JsonValue :=
  match parseJsonValue (s.data.length + 1) s.data with
  | some (v, r) => if (skipJsonWs r).isEmpty then some v else none
  | none => none

/-- The brace-joining replace `/}\s*{/g → '},{'` of the repair heuristic.
After an emitted closing brace (flag true), whitespace is buffered until
either an opening brace completes a match (the buffered whitespace is
replaced by the inserted comma) or any other character flushes the buffer. -/
def joinBracesAux : Bool → List Char → List Char → List Char
  | false, _, [] => []
  | false, _, c :: rest =>
    if c = '\x7d' then '\x7d' :: joinBracesAux true [] rest
    else c :: joinBracesAux false [] rest
  | true, wsBuf, [] => wsBuf.reverse
  | true, wsBuf, c :: rest =>
    if isWsChar c then joinBracesAux true (c :: wsBuf) rest
    else if c = '\x7b' then ',' :: '\x7b' :: joinBracesAux false [] rest
    else if c = '\x7d' then wsBuf.reverse ++ '\x7d' :: joinBracesAux true [] rest
    else wsBuf.reverse ++ c :: joinBracesAux false [] rest

/-- Index of the last occurrence of a character (`lastIndexOf`), if any. -/
def lastIdxOfAux (t : Char) : List Char → Nat → Option Nat → Option Nat
  | [], _, best => best
  | c :: rest, pos, best =>
    lastIdxOfAux t rest (pos + 1) (if c = t then some pos else best)

/-- The `[`-branch of the repair: truncate to the last well-formed object or
array boundary (`lastIndexOf('}')` vs `lastIndexOf(']')`), mirroring the
source's `-1` sentinel arithmetic. -/
def truncateFix (cs : List Char) : List Char :=
  let lastBrace : Int :=
    match lastIdxOfAux '\x7d' cs 0 none with
    | some n => (n : Int)
    | none => -1
  let lastBracket : Int :=
    match lastIdxOfAux ']' cs 0 none with
    | some n => (n : Int)
    | none => -1
  if lastBrace > lastBracket then cs.take (lastBrace.toNat + 1) ++ [']']
  else if lastBracket > -1 then cs.take (lastBracket.toNat + 1)
  else cs

/-- The final `.replace(/,\s*]$/, ']')` of the repair: strip one dangling
comma before a closing bracket at the very end. -/
def stripTrailingComma (cs : List Char) : List Char :=
  match cs.reverse with
  | c :: rest =>
    if c = ']' then
      match rest.dropWhile isWsChar with
      | c2 :: rest2 => if c2 = ',' then (']' :: rest2).reverse else cs
      | [] => cs
    else cs
  | [] => cs

/-- The whole repair of `processFile`: trim; if the content starts with `{`
join back-to-back objects and wrap in brackets, if it starts with `[`
truncate to the last boundary; then strip a dangling trailing comma. -/
def fixContent (content : String) : String :=
  let t := jsTrimChars content.data
  let f :=
    match t with
    | c :: _ =>
      if c = '\x7b' then '[' :: (joinBracesAux false [] t ++ [']'])
      else if c = '[' then truncateFix t
      else t
    | [] => t
  ⟨stripTrailingComma f⟩

/-- The post-parse steps of `processFile`: the parsed value must be an array
(else the thrown message reaches the outer catch with its prefix), and its
elements are normalized. -/
def ingestData (freshIds : Nat → String) (v : JsonValue) : Except String (List ParsedRecord) :=
  match v with
  | .arr items => .ok (processedRecords freshIds items 0)
  | _ => .error "Erro ao processar o arquivo: O JSON fornecido não é um array. O arquivo deve conter um array de objetos."

/-- The ingestion of `processFile`: strict parse; on failure repair once and
strictly parse the repaired content exactly once; a second failure rejects
with the syntax-error message. -/
def processFileModel (freshIds : Nat → String) (content : String) :
    Except String (List ParsedRecord) :=
  match jsonParse content with
  | some v => ingestData freshIds v
  | none =>
    match jsonParse (fixContent content) with
    | some v => ingestData freshIds v
    | none => .error "Erro de sintaxe: O arquivo não é um JSON válido."

/-- The fixed CSV column order of `convertToCsv`. -/
def csvHeaders : List String :=
  ["title", "community", "author", "text_clean", "word_count",
   "clareza", "empatia", "coerencia", "formalidade", "eficacia", "linguistica",
   "QualityScore", "comentario", "status"]

/-- Stringification `'' + (row[header] ?? '')` of an optional numeric field:
an absent value renders as the empty string, a present one through the given
number formatter. -/
def optNumToStr (numToStr : ℚ → String) : Option ℚ → String
  | some q => numToStr q
  | none => ""

/-- The stringified cell values of one record, in the fixed column order. -/
def csvFieldsOf (numToStr : ℚ → String) (row : CleanedRecord) : List String :=
  [row.title, row.community, row.author, row.text_clean, Nat.repr row.word_count,
   optNumToStr numToStr row.clareza, optNumToStr numToStr row.empatia,
   optNumToStr numToStr row.coerencia, optNumToStr numToStr row.formalidade,
   optNumToStr numToStr row.eficacia, optNumToStr numToStr row.linguistica,
   optNumToStr numToStr row.QualityScore,
   (match row.comentario with | some s => s | none => ""),
   statusText row.status]

/-- The escape `('' + value).replace(/"/g, '""')`: double every double quote. -/
def escapeQuotes : List Char → List Char
  | [] => []
  | c :: rest =>
    if c = '"' then '"' :: '"' :: escapeQuotes rest else c :: escapeQuotes rest

/-- One exported cell: the escaped value wrapped in double quotes. -/
def csvCell (s : String) : List Char := '"' :: (escapeQuotes s.data ++ ['"'])

/-- `values.join(',')` at the character level. -/
def joinWithComma : List (List Char) → List Char
  | [] => []
  | [f] => f
  | f :: fs => f ++ ',' :: joinWithComma fs

/-- One exported data row: every cell quoted, cells joined with commas. -/
def csvRowChars (fields : List String) : List Char :=
  joinWithComma (fields.map (fun f => csvCell f))

/-- `csvRows.join('\n')` at the character level. -/
def joinRowsWithNewline : List (List Char) → List Char
  | [] => []
  | [r] => r
  | r :: rs => r ++ '\n' :: joinRowsWithNewline rs

/-- The exporter `convertToCsv`: empty input yields the empty string (no
header-only output); otherwise the raw comma-joined header row followed by
one quoted-and-escaped row per record, newline-joined. Number rendering is a
parameter, as JS number formatting is ambient. -/
def convertToCsv (numToStr : ℚ → String) (data : List CleanedRecord) : String :=
  if data.isEmpty then ""
  else
    ⟨joinRowsWithNewline
      ((joinWithComma (csvHeaders.map String.data)) ::
        data.map (fun row => csvRowChars (csvFieldsOf numToStr row)))⟩

/-- A standard quoted-CSV reader as a character automaton: a double quote
toggles quoted mode, a doubled quote inside quoted mode is a literal quote,
commas and newlines outside quoted mode delimit fields and rows. The
accumulators hold finished rows (reversed), the current row's finished fields
(reversed) and the current field (reversed). -/
def csvScan : List (List String) → List String → List Char → Bool → List Char →
    Option (List (List String))
  | _, _, _, true, [] => none
  | rows, fields, cur, true, c :: rest =>
    if c = '"' then
      match rest with
      | c2 :: rest2 =>
        if c2 = '"' then csvScan rows fields ('"' :: cur) true rest2
        else csvScan rows fields cur false (c2 :: rest2)
      | [] => csvScan rows fields cur false []
    else csvScan rows fields (c :: cur) true rest
  | rows, fields, cur, false, [] =>
    some ((((⟨cur.reverse⟩ : String) :: fields).reverse :: rows).reverse)
  | rows, fields, cur, false, c :: rest =>
    if c = ',' then csvScan rows ((⟨cur.reverse⟩ : String) :: fields) [] false rest
    else if c = '\n' then
      csvScan (((⟨cur.reverse⟩ : String) :: fields).reverse :: rows) [] [] false rest
    else if c = '"' then csvScan rows fields cur true rest
    else csvScan rows fields (c :: cur) false rest

/-- Parse CSV text into its rows of field strings. -/
def parseCsv (s : String) : Option (List (List String)) :=
  csvScan [] [] [] false s.data

/-- The repair scenario's input: two bare back-to-back objects. -/
def json9Scenario : String := "\x7b\"title\":\"A\"\x7d\x7b\"title\":\"B\"\x7d"

/-- The repair scenario's expected repaired content. -/
def json9Repaired : String := "[\x7b\"title\":\"A\"\x7d,\x7b\"title\":\"B\"\x7d]"

/-- The first record the repair scenario ingests (synthesized id "0"). -/
def json9RecA : ParsedRecord :=
  { _id := "0", title := "A", community := "", author := "",
    text_clean := "", word_count := 0 }

/-- The second record the repair scenario ingests (synthesized id "1"). -/
def json9RecB : ParsedRecord :=
  { _id := "1", title := "B", community := "", author := "",
    text_clean := "", word_count := 0 }

/-- A concrete parsed record, for instantiating the theorems below. -/
def sampleRec : ParsedRecord :=
  { _id := "a", title := "T", community := "C", author := "A",
    text_clean := "hello", word_count := 1 }

/-- A concrete response item matching `sampleRec`'s id. -/
def sampleItem : ApiResponseItem :=
  { id := "a", clareza := 10, empatia := 9, coerencia := 8,
    formalidade := 7, eficacia := 6, linguistica := 5, comentario := "ok" }

/-- A concrete response item whose id matches no record of the sample batch. -/
def strayItem : ApiResponseItem :=
  { id := "zzz", clareza := 1, empatia := 1, coerencia := 1,
    formalidade := 1, eficacia := 1, linguistica := 1, comentario := "stray" }

/-- Eleven concrete records with distinct ids: enough for two batches
(10 + 1) under the fixed batch size. -/
def elevenRecords : List ParsedRecord :=
  (List.range 11).map (fun n =>
    { _id := toString n, title := "", community := "", author := "",
      text_clean := "", word_count := 0 })

/-- The concrete per-batch outcome oracle used by the C2 witness: the first
batch's call succeeds, every later batch's call throws. -/
def firstBatchOnly (j : Nat) : Option (List ApiResponseItem) :=
  if j = 0 then some [sampleItem] else none

theorem containsChars_nil (l : List Char) : containsChars l [] = true := by
  cases l <;> simp [containsChars, startsWithChars]

/-- C10: when all three filter strings are empty, the filter accepts every
record, so the displayed/exported collection is exactly the full record
collection in its original order — the empty filter is the identity. -/
theorem empty_filter_is_identity (cleanedData : List CleanedRecord) :
    filterRecords ⟨"", "", ""⟩ cleanedData = cleanedData := by
  unfold filterRecords
  apply List.filter_eq_self.mpr
  intro a _
  simp [strIncludes, jsToLower, containsChars_nil]

theorem resultLookup_foldl_none (items : List ApiResponseItem) (id : String) :
    ∀ acc : Option ApiResponseItem,
      items.foldl (fun acc it => if it.id = id then some it else acc) acc = none ↔
        acc = none ∧ ∀ it ∈ items, it.id ≠ id := by
  induction items with
  | nil => simp
  | cons hd tl ih =>
    intro acc
    simp only [List.foldl_cons, List.mem_cons]
    rw [ih]
    by_cases h : hd.id = id <;> simp [h]

theorem resultLookup_eq_none (items : List ApiResponseItem) (id : String) :
    resultLookup items id = none ↔ ∀ it ∈ items, it.id ≠ id := by
  unfold resultLookup
  rw [resultLookup_foldl_none]
  simp

theorem qualityScoreOf_eq (res : ApiResponseItem) :
    qualityScoreOf res =
      0.20 * res.clareza + 0.20 * res.empatia + 0.20 * res.coerencia +
        0.15 * res.formalidade + 0.15 * res.eficacia + 0.10 * res.linguistica := by
  simp only [qualityScoreOf, weights, List.foldl_cons, List.foldl_nil, dimValue]
  norm_num
  simp +decide
  ring

/-- C1: every record whose scoring response item matched its id (status set to
Scored) carries a merged `QualityScore` equal to the weighted sum
`0.20·clareza + 0.20·empatia + 0.20·coerencia + 0.15·formalidade +
0.15·eficacia + 0.10·linguistica` of the six merged dimension values,
rounded to two decimal places. -/
theorem scored_quality_is_weighted_rounded (batch : List ParsedRecord)
    (items : List ApiResponseItem) (rec : CleanedRecord)
    (hmem : rec ∈ analyzeQualityBatch batch (some items))
    (hst : rec.status = Status.analisado) :
    ∃ c e co fo ef li, rec.clareza = some c ∧ rec.empatia = some e ∧
      rec.coerencia = some co ∧ rec.formalidade = some fo ∧
      rec.eficacia = some ef ∧ rec.linguistica = some li ∧
      rec.QualityScore =
        some (roundTo2 (0.20 * c + 0.20 * e + 0.20 * co +
          0.15 * fo + 0.15 * ef + 0.10 * li)) := by
  simp only [analyzeQualityBatch, List.mem_map] at hmem
  obtain ⟨r, _, rfl⟩ := hmem
  unfold analyzeOne at hst ⊢
  cases hlk : resultLookup items r._id with
  | none => simp [hlk, failRecord, pendingOf] at hst
  | some res =>
    simp only [hlk]
    refine ⟨res.clareza, res.empatia, res.coerencia, res.formalidade,
      res.eficacia, res.linguistica, ?_⟩
    simp [scoredRecord, pendingOf, qualityScoreOf_eq]

/-- Witness for C1 at a concrete scored batch. -/
theorem scored_quality_is_weighted_rounded_witness :
    ∃ c e co fo ef li,
      (analyzeOne sampleRec (some [sampleItem])).clareza = some c ∧
      (analyzeOne sampleRec (some [sampleItem])).empatia = some e ∧
      (analyzeOne sampleRec (some [sampleItem])).coerencia = some co ∧
      (analyzeOne sampleRec (some [sampleItem])).formalidade = some fo ∧
      (analyzeOne sampleRec (some [sampleItem])).eficacia = some ef ∧
      (analyzeOne sampleRec (some [sampleItem])).linguistica = some li ∧
      (analyzeOne sampleRec (some [sampleItem])).QualityScore =
        some (roundTo2 (0.20 * c + 0.20 * e + 0.20 * co +
          0.15 * fo + 0.15 * ef + 0.10 * li)) :=
  scored_quality_is_weighted_rounded [sampleRec] [sampleItem]
    (analyzeOne sampleRec (some [sampleItem]))
    (List.mem_singleton.mpr rfl) (by decide)

/-- C3 counterexample: a batch of one record together with a parsed response
holding an item whose id (`"zzz"`) is not among the request ids. The claim
demands that the entire batch be failed with no record marked Scored, yet the
code ignores the stray item and still marks the matched record Scored. -/
theorem stray_response_id_batch_counterexample :
    (∃ it ∈ [sampleItem, strayItem], ∀ r ∈ [sampleRec], r._id ≠ it.id) ∧
    ∃ rec ∈ analyzeQualityBatch [sampleRec] (some [sampleItem, strayItem]),
      rec.status = Status.analisado := by decide

/-- C3 amended: the merge is per-record, not all-or-nothing. A response item
whose id is not among the request ids is simply ignored; each record of the
batch with a response item matching its id is marked Scored, and each record
without one is failed individually (status Failed, quality score 0). -/
theorem response_merge_is_per_record (batch : List ParsedRecord)
    (items : List ApiResponseItem) (r : ParsedRecord) (hr : r ∈ batch) :
    ∃ rec ∈ analyzeQualityBatch batch (some items),
      rec._id = r._id ∧
      ((∃ it ∈ items, it.id = r._id) → rec.status = Status.analisado) ∧
      ((∀ it ∈ items, it.id ≠ r._id) →
        rec = failRecord r ∧ rec.status = Status.falha ∧ rec.QualityScore = some 0) := by
  refine ⟨analyzeOne r (some items), ?_, ?_, ?_, ?_⟩
  · exact List.mem_map.mpr ⟨r, hr, rfl⟩
  · unfold analyzeOne
    cases hlk : resultLookup items r._id <;>
      simp [hlk, scoredRecord, failRecord, pendingOf]
  · rintro ⟨it, hit, hid⟩
    unfold analyzeOne
    cases hlk : resultLookup items r._id with
    | none => exact absurd hid ((resultLookup_eq_none items r._id).mp hlk it hit)
    | some res => simp [hlk, scoredRecord, pendingOf]
  · intro hnone
    have hlk : resultLookup items r._id = none :=
      (resultLookup_eq_none items r._id).mpr hnone
    simp [analyzeOne, hlk, failRecord, pendingOf]

/-- Witness for the amended C3 at a concrete batch and response. -/
theorem response_merge_is_per_record_witness :
    ∃ rec ∈ analyzeQualityBatch [sampleRec] (some [sampleItem, strayItem]),
      rec._id = sampleRec._id ∧
      ((∃ it ∈ [sampleItem, strayItem], it.id = sampleRec._id) →
        rec.status = Status.analisado) ∧
      ((∀ it ∈ [sampleItem, strayItem], it.id ≠ sampleRec._id) →
        rec = failRecord sampleRec ∧ rec.status = Status.falha ∧
          rec.QualityScore = some 0) :=
  response_merge_is_per_record [sampleRec] [sampleItem, strayItem] sampleRec
    (by decide)

/-- C5 counterexample: a run whose ingestion yields zero usable records sets
the processing step to `done` (with the error message surfaced), not back to
the pre-run `idle` state the claim demands. -/
theorem empty_dataset_not_idle_counterexample :
    (handleProcessClick (.ok []) (fun _ => none)).step ≠ ProcessingStep.idle ∧
    (handleProcessClick (.ok []) (fun _ => none)).step = ProcessingStep.done := by
  decide

/-- C5 amended: when ingestion plus normalization yields zero usable records,
the run aborts with the descriptive message "Nenhum registro válido
encontrado no arquivo." before any scoring is attempted (the shared
collection stays empty and no batch is issued), but the pipeline is left in
the `done` step, not the pre-run `idle` state; only a thrown ingestion error
(the rejected-promise path) resets the step to `idle`. -/
theorem empty_dataset_aborts_before_scoring
    (responses : Nat → Option (List ApiResponseItem)) (msg : String) :
    (handleProcessClick (.ok []) responses).error =
      some "Nenhum registro válido encontrado no arquivo." ∧
    (handleProcessClick (.ok []) responses).cleanedData = [] ∧
    (handleProcessClick (.ok []) responses).step = ProcessingStep.done ∧
    (handleProcessClick (.error msg) responses).step = ProcessingStep.idle := by
  refine ⟨rfl, rfl, rfl, rfl⟩


theorem option_elim_none_some {α : Type} (o : Option α) : o.elim none some = o := by
  cases o <;> rfl

theorem analyzeOne_id (r : ParsedRecord) (resp : Option (List ApiResponseItem)) :
    (analyzeOne r resp)._id = r._id := by
  unfold analyzeOne
  cases resp with
  | none => rfl
  | some items =>
    cases hlk : resultLookup items r._id <;>
      simp [hlk, failRecord, scoredRecord, pendingOf]

theorem analyzeOne_terminal (r : ParsedRecord) (resp : Option (List ApiResponseItem)) :
    (analyzeOne r resp).status ≠ Status.aguardando := by
  unfold analyzeOne
  cases resp with
  | none => simp [failRecord, pendingOf]
  | some items =>
    cases hlk : resultLookup items r._id <;>
      simp [hlk, failRecord, scoredRecord, pendingOf]

theorem analyzeQualityBatch_eq_map (batch : List ParsedRecord)
    (resp : Option (List ApiResponseItem)) :
    analyzeQualityBatch batch resp = batch.map (fun r => analyzeOne r resp) := by
  cases resp <;> rfl

theorem mergeRecords_pendingOf (r : ParsedRecord) (rec : CleanedRecord) :
    mergeRecords (pendingOf r) rec = rec := by
  cases rec
  simp [mergeRecords, pendingOf, option_elim_none_some]

theorem updateById_append_left (pre rest : List CleanedRecord) (rec : CleanedRecord)
    (h : ∀ x ∈ pre, x._id ≠ rec._id) :
    updateById (pre ++ rest) rec = pre ++ updateById rest rec := by
  induction pre with
  | nil => rfl
  | cons y ys ih =>
    have hy : y._id ≠ rec._id := h y (List.mem_cons_self y ys)
    have hih := ih (fun x hx => h x (List.mem_cons_of_mem y hx))
    simp only [List.cons_append, updateById, if_neg hy]
    simpa using hih

theorem mergeBatch_segment (resp : Option (List ApiResponseItem)) :
    ∀ (batch : List ParsedRecord) (pre post : List CleanedRecord),
      (batch.map ParsedRecord._id).Nodup →
      (∀ id ∈ batch.map ParsedRecord._id, ∀ x ∈ pre, x._id ≠ id) →
      mergeBatch (pre ++ batch.map pendingOf ++ post)
          (batch.map (fun r => analyzeOne r resp))
        = pre ++ batch.map (fun r => analyzeOne r resp) ++ post
  | [], pre, post, _, _ => rfl
  | r :: rs, pre, post, hnodup, hdisj => by
    have hid : (pendingOf r)._id = (analyzeOne r resp)._id := by
      rw [analyzeOne_id]; rfl
    have hpre : ∀ x ∈ pre, x._id ≠ (analyzeOne r resp)._id := by
      intro x hx
      rw [analyzeOne_id]
      exact hdisj r._id (by simp) x hx
    have hupd : updateById (pre ++ ((r :: rs).map pendingOf ++ post)) (analyzeOne r resp)
        = (pre ++ [analyzeOne r resp]) ++ (rs.map pendingOf ++ post) := by
      rw [List.map_cons, List.cons_append,
        updateById_append_left pre _ _ hpre]
      simp only [updateById, if_pos hid, mergeRecords_pendingOf]
      simp
    have hnodup' : (rs.map ParsedRecord._id).Nodup := by
      simp only [List.map_cons, List.nodup_cons] at hnodup
      exact hnodup.2
    have hhead : r._id ∉ rs.map ParsedRecord._id := by
      simp only [List.map_cons, List.nodup_cons] at hnodup
      exact hnodup.1
    have hdisj' : ∀ id ∈ rs.map ParsedRecord._id,
        ∀ x ∈ pre ++ [analyzeOne r resp], x._id ≠ id := by
      intro id hid' x hx
      rcases List.mem_append.mp hx with hxp | hxr
      · exact hdisj id (List.mem_cons_of_mem _ hid') x hxp
      · have hxeq : x = analyzeOne r resp := by simpa using hxr
        subst hxeq
        rw [analyzeOne_id]
        intro hcontra
        exact hhead (hcontra ▸ hid')
    have ih := mergeBatch_segment resp rs (pre ++ [analyzeOne r resp]) post hnodup' hdisj'
    calc mergeBatch (pre ++ (r :: rs).map pendingOf ++ post)
            ((r :: rs).map (fun r => analyzeOne r resp))
        = mergeBatch
            (updateById (pre ++ ((r :: rs).map pendingOf ++ post)) (analyzeOne r resp))
            (rs.map (fun r => analyzeOne r resp)) := by
          simp [mergeBatch, List.append_assoc]
      _ = mergeBatch ((pre ++ [analyzeOne r resp]) ++ ((rs.map pendingOf) ++ post))
            (rs.map (fun r => analyzeOne r resp)) := by rw [hupd]
      _ = (pre ++ [analyzeOne r resp]) ++ rs.map (fun r => analyzeOne r resp) ++ post := by
          have := ih
          simpa [List.append_assoc] using this
      _ = pre ++ (r :: rs).map (fun r => analyzeOne r resp) ++ post := by simp

theorem chunk_cons (x : ParsedRecord) (xs : List ParsedRecord) :
    chunkBatches (x :: xs)
      = (x :: xs.take (BATCH_SIZE - 1)) :: chunkBatches (xs.drop (BATCH_SIZE - 1)) := by
  rw [chunkBatches]

theorem expectedPartial_zero (responses : Nat → Option (List ApiResponseItem))
    (records : List ParsedRecord) (i : Nat) :
    expectedPartial responses records i 0 = records.map pendingOf := by
  cases records <;> rw [expectedPartial]

theorem expectedPartial_nil (responses : Nat → Option (List ApiResponseItem))
    (i k : Nat) : expectedPartial responses [] i k = [] := by
  cases k with
  | zero => rw [expectedPartial]; rfl
  | succ k => rw [expectedPartial]

theorem expectedPartial_cons_succ (responses : Nat → Option (List ApiResponseItem))
    (x : ParsedRecord) (xs : List ParsedRecord) (i k : Nat) :
    expectedPartial responses (x :: xs) i (k + 1)
      = ((x :: xs.take (BATCH_SIZE - 1)).map (fun r => analyzeOne r (responses i))) ++
          expectedPartial responses (xs.drop (BATCH_SIZE - 1)) (i + 1) k := by
  rw [expectedPartial]

theorem cons_take_append_drop (x : ParsedRecord) (xs : List ParsedRecord) :
    (x :: xs.take (BATCH_SIZE - 1)) ++ xs.drop (BATCH_SIZE - 1) = x :: xs := by
  simp [List.take_append_drop]

theorem runFrom_take_aux (responses : Nat → Option (List ApiResponseItem)) :
    ∀ (n : Nat) (records : List ParsedRecord), records.length ≤ n →
      ∀ (pre : List CleanedRecord) (i k : Nat),
        (records.map ParsedRecord._id).Nodup →
        (∀ id ∈ records.map ParsedRecord._id, ∀ x ∈ pre, x._id ≠ id) →
        runFrom responses (pre ++ records.map pendingOf)
            ((chunkBatches records).take k) i
          = pre ++ expectedPartial responses records i k := by
  intro n
  induction n with
  | zero =>
    intro records hlen pre i k _ _
    have hrec : records = [] := List.eq_nil_of_length_eq_zero (Nat.le_zero.mp hlen)
    subst hrec
    simp [chunkBatches, runFrom, expectedPartial_nil]
  | succ n ih =>
    intro records hlen pre i k hnodup hdisj
    cases records with
    | nil => simp [chunkBatches, runFrom, expectedPartial_nil]
    | cons x xs =>
      cases k with
      | zero =>
        simp [runFrom, expectedPartial_zero]
      | succ k =>
        rw [chunk_cons, List.take_succ_cons]
        set b := x :: xs.take (BATCH_SIZE - 1) with hb
        set rest := xs.drop (BATCH_SIZE - 1) with hrest
        have hids : (x :: xs).map ParsedRecord._id
            = b.map ParsedRecord._id ++ rest.map ParsedRecord._id := by
          rw [← List.map_append, cons_take_append_drop]
        rw [hids] at hnodup
        obtain ⟨hnb, hnr, hdisjbr⟩ := List.nodup_append.mp hnodup
        have hsplit : (x :: xs).map pendingOf
            = b.map pendingOf ++ rest.map pendingOf := by
          rw [← List.map_append, cons_take_append_drop]
        rw [hsplit]
        rw [show pre ++ (b.map pendingOf ++ rest.map pendingOf)
              = pre ++ b.map pendingOf ++ rest.map pendingOf from by simp]
        simp only [runFrom, analyzeQualityBatch_eq_map]
        have hdisj_b : ∀ id ∈ b.map ParsedRecord._id, ∀ y ∈ pre, y._id ≠ id := by
          intro id hid y hy
          exact hdisj id (hids ▸ List.mem_append_left _ hid) y hy
        rw [mergeBatch_segment (responses i) b pre (rest.map pendingOf) hnb hdisj_b]
        have hlen' : rest.length ≤ n := by
          simp only [hrest, List.length_drop]
          simp only [List.length_cons] at hlen
          omega
        have hdisj_rest : ∀ id ∈ rest.map ParsedRecord._id,
            ∀ y ∈ pre ++ b.map (fun r => analyzeOne r (responses i)), y._id ≠ id := by
          intro id hid y hy
          rcases List.mem_append.mp hy with hyp | hyb
          · exact hdisj id (hids ▸ List.mem_append_right _ hid) y hyp
          · obtain ⟨rb, hrb, rfl⟩ := List.mem_map.mp hyb
            rw [analyzeOne_id]
            intro hcontra
            exact hdisjbr (List.mem_map_of_mem ParsedRecord._id hrb) (hcontra ▸ hid)
        rw [ih rest hlen' (pre ++ b.map (fun r => analyzeOne r (responses i)))
          (i + 1) k hnr hdisj_rest]
        rw [expectedPartial_cons_succ]
        simp only [hb, hrest, List.map_cons, List.map_take]
        simp [List.append_assoc]

theorem chunk_nil : chunkBatches [] = [] := by
  rw [chunkBatches]

theorem stateAfter_eq (records : List ParsedRecord)
    (responses : Nat → Option (List ApiResponseItem))
    (h : (records.map ParsedRecord._id).Nodup) (k : Nat) :
    stateAfter records responses k = expectedPartial responses records 0 k := by
  have := runFrom_take_aux responses records.length records le_rfl [] 0 k h (by simp)
  simpa [stateAfter] using this

theorem runBatches_eq_expected (records : List ParsedRecord)
    (responses : Nat → Option (List ApiResponseItem))
    (h : (records.map ParsedRecord._id).Nodup) :
    runBatches records responses
      = expectedPartial responses records 0 ((chunkBatches records).length) := by
  have := runFrom_take_aux responses records.length records le_rfl [] 0
    ((chunkBatches records).length) h (by simp)
  simpa [runBatches] using this


theorem expectedPartial_join_aux (responses : Nat → Option (List ApiResponseItem)) :
    ∀ (n : Nat) (records : List ParsedRecord), records.length ≤ n → ∀ i : Nat,
      expectedPartial responses records i ((chunkBatches records).length)
        = ((chunkBatches records).mapIdx
            (fun j bb => bb.map (fun r => analyzeOne r (responses (i + j))))).flatten := by
  intro n
  induction n with
  | zero =>
    intro records hlen i
    have hrec : records = [] := List.eq_nil_of_length_eq_zero (Nat.le_zero.mp hlen)
    subst hrec
    simp [chunk_nil, expectedPartial_nil]
  | succ n ih =>
    intro records hlen i
    cases records with
    | nil => simp [chunk_nil, expectedPartial_nil]
    | cons x xs =>
      rw [chunk_cons, List.length_cons, expectedPartial_cons_succ]
      have hlen' : (xs.drop (BATCH_SIZE - 1)).length ≤ n := by
        simp only [List.length_drop]
        simp only [List.length_cons] at hlen
        omega
      rw [ih (xs.drop (BATCH_SIZE - 1)) hlen' (i + 1)]
      rw [List.mapIdx_cons, List.flatten_cons]
      congr 1
      apply congrArg
        (fun f => (List.mapIdx f (chunkBatches (List.drop (BATCH_SIZE - 1) xs))).flatten)
      funext j bb
      rw [show i + 1 + j = i + (j + 1) from by omega]

/-- C2: with distinct record ids, the final collection is the concatenation,
batch by batch in order, of each batch's per-record outcome computed from that
batch's own response alone — so a batch whose external call throws or whose
response is non-parseable (`responses j = none`) has every one of its records
Failed with quality score 0, while every other batch's records are computed
from their own batch's response, unaffected: previously scored batches keep
their values and subsequent batches are still scheduled and scored. -/
theorem batch_failure_isolation (records : List ParsedRecord)
    (responses : Nat → Option (List ApiResponseItem))
    (h : (records.map ParsedRecord._id).Nodup) :
    runBatches records responses
      = ((chunkBatches records).mapIdx
          (fun j b => b.map (fun r => analyzeOne r (responses j)))).flatten ∧
    (∀ j (b : List ParsedRecord), responses j = none →
      b.map (fun r => analyzeOne r (responses j)) = b.map failRecord) ∧
    ∀ r : ParsedRecord,
      (failRecord r).status = Status.falha ∧ (failRecord r).QualityScore = some 0 := by
  refine ⟨?_, ?_, ?_⟩
  · rw [runBatches_eq_expected records responses h,
      expectedPartial_join_aux responses records.length records le_rfl 0]
    simp
  · intro j b hresp
    rw [hresp]
    rfl
  · intro r
    exact ⟨rfl, rfl⟩

/-- Witness for C2 at a concrete two-batch run (11 records, hence two
batches) whose second batch's call fails. -/
theorem batch_failure_isolation_witness :
    runBatches elevenRecords firstBatchOnly
      = ((chunkBatches elevenRecords).mapIdx
          (fun j b => b.map (fun r => analyzeOne r (firstBatchOnly j)))).flatten ∧
    (∀ j (b : List ParsedRecord), firstBatchOnly j = none →
      b.map (fun r => analyzeOne r (firstBatchOnly j)) = b.map failRecord) ∧
    ∀ r : ParsedRecord,
      (failRecord r).status = Status.falha ∧ (failRecord r).QualityScore = some 0 :=
  batch_failure_isolation elevenRecords firstBatchOnly (by decide)


theorem getElem_q_append_lt {α : Type} (l₁ l₂ : List α) (n : Nat) (h : n < l₁.length) :
    (l₁ ++ l₂)[n]? = l₁[n]? := by
  rw [List.getElem?_append, if_pos h]

theorem getElem_q_append_ge {α : Type} (l₁ l₂ : List α) (n : Nat) (h : l₁.length ≤ n) :
    (l₁ ++ l₂)[n]? = l₂[n - l₁.length]? := by
  rw [List.getElem?_append, if_neg (by omega)]

theorem expectedPartial_step (responses : Nat → Option (List ApiResponseItem)) :
    ∀ (fuel : Nat) (records : List ParsedRecord), records.length ≤ fuel →
      ∀ (i k p : Nat),
      (expectedPartial responses records i k)[p]?
          = (expectedPartial responses records i (k + 1))[p]? ∨
      ∃ r : ParsedRecord,
        (expectedPartial responses records i k)[p]? = some (pendingOf r) ∧
        ∀ m, k < m → (expectedPartial responses records i m)[p]?
          = some (analyzeOne r (responses (i + k))) := by
  intro fuel
  induction fuel with
  | zero =>
    intro records hlen i k p
    have hrec : records = [] := List.eq_nil_of_length_eq_zero (Nat.le_zero.mp hlen)
    subst hrec
    left
    simp [expectedPartial_nil]
  | succ fuel ih =>
    intro records hlen i k p
    cases records with
    | nil =>
      left
      simp [expectedPartial_nil]
    | cons x xs =>
      have hlen' : (xs.drop (BATCH_SIZE - 1)).length ≤ fuel := by
        simp only [List.length_drop]
        simp only [List.length_cons] at hlen
        omega
      set b := x :: xs.take (BATCH_SIZE - 1) with hb
      set rest := xs.drop (BATCH_SIZE - 1) with hrest
      have hsplit : (x :: xs).map pendingOf = b.map pendingOf ++ rest.map pendingOf := by
        rw [← List.map_append, cons_take_append_drop]
      by_cases hp : p < b.length
      · cases k with
        | zero =>
          right
          obtain ⟨r, hr⟩ : ∃ r, b[p]? = some r :=
            ⟨b[p], List.getElem?_eq_getElem hp⟩
          refine ⟨r, ?_, ?_⟩
          · rw [expectedPartial_zero, hsplit,
              getElem_q_append_lt _ _ _ (by simpa using hp), List.getElem?_map, hr]
            rfl
          · intro m hm
            cases m with
            | zero => omega
            | succ m =>
              rw [expectedPartial_cons_succ, ← hb, ← hrest,
                getElem_q_append_lt _ _ _ (by simpa using hp), List.getElem?_map, hr]
              simp
        | succ k =>
          left
          rw [expectedPartial_cons_succ, expectedPartial_cons_succ, ← hb, ← hrest,
            getElem_q_append_lt _ _ _ (by simpa using hp),
            getElem_q_append_lt _ _ _ (by simpa using hp)]
      · push_neg at hp
        cases k with
        | zero =>
          left
          rw [expectedPartial_zero, hsplit, expectedPartial_cons_succ, ← hb, ← hrest,
            getElem_q_append_ge _ _ _ (by simpa using hp),
            getElem_q_append_ge _ _ _ (by simpa using hp)]
          simp only [List.length_map]
          rw [expectedPartial_zero]
        | succ k =>
          rcases ih rest hlen' (i + 1) k (p - b.length) with heq | ⟨r, hpend, hall⟩
          · left
            rw [expectedPartial_cons_succ, expectedPartial_cons_succ, ← hb, ← hrest,
              getElem_q_append_ge _ _ _ (by simpa using hp),
              getElem_q_append_ge _ _ _ (by simpa using hp)]
            simpa using heq
          · right
            refine ⟨r, ?_, ?_⟩
            · rw [expectedPartial_cons_succ, ← hb, ← hrest,
                getElem_q_append_ge _ _ _ (by simpa using hp)]
              simpa using hpend
            · intro m hm
              cases m with
              | zero => omega
              | succ m =>
                rw [expectedPartial_cons_succ, ← hb, ← hrest,
                  getElem_q_append_ge _ _ _ (by simpa using hp)]
                simp only [List.length_map]
                have h2 := hall m (Nat.lt_of_succ_lt_succ hm)
                rw [h2, show i + 1 + k = i + (k + 1) from by omega]

/-- C4: with distinct record ids, between any two consecutive batch merges
the entry at each collection position either is untouched or moves from
Pending (`pendingOf`, status `Aguardando IA...`) to a terminal analyzed value
whose status is Scored or Failed, and from then on every later state of the
run holds exactly that value — the transition happens at most once, never
reverses, and so each record identifier is written by the merge at most once
across the whole run. -/
theorem record_status_single_transition (records : List ParsedRecord)
    (responses : Nat → Option (List ApiResponseItem))
    (h : (records.map ParsedRecord._id).Nodup) (k p : Nat) :
    (stateAfter records responses k)[p]? = (stateAfter records responses (k + 1))[p]? ∨
    ∃ r : ParsedRecord,
      (stateAfter records responses k)[p]? = some (pendingOf r) ∧
      (pendingOf r).status = Status.aguardando ∧
      (analyzeOne r (responses k)).status ≠ Status.aguardando ∧
      ∀ m, k < m →
        (stateAfter records responses m)[p]? = some (analyzeOne r (responses k)) := by
  rcases expectedPartial_step responses records.length records le_rfl 0 k p with
    heq | ⟨r, hpend, hall⟩
  · left
    rw [stateAfter_eq records responses h k, stateAfter_eq records responses h (k + 1)]
    exact heq
  · right
    refine ⟨r, ?_, rfl, analyzeOne_terminal r _, ?_⟩
    · rw [stateAfter_eq records responses h k]
      exact hpend
    · intro m hm
      rw [stateAfter_eq records responses h m]
      have h2 := hall m hm
      rw [h2, Nat.zero_add]

/-- Witness for C4 at a concrete run and position. -/
theorem record_status_single_transition_witness :
    (stateAfter elevenRecords firstBatchOnly 0)[0]?
        = (stateAfter elevenRecords firstBatchOnly 1)[0]? ∨
    ∃ r : ParsedRecord,
      (stateAfter elevenRecords firstBatchOnly 0)[0]? = some (pendingOf r) ∧
      (pendingOf r).status = Status.aguardando ∧
      (analyzeOne r (firstBatchOnly 0)).status ≠ Status.aguardando ∧
      ∀ m, 0 < m →
        (stateAfter elevenRecords firstBatchOnly m)[0]?
          = some (analyzeOne r (firstBatchOnly 0)) :=
  record_status_single_transition elevenRecords firstBatchOnly (by decide) 0 0

/-- C6: for every successfully parsed input array, the number of normalized
records equals the number of array elements that are object-shaped (JS
`typeof item === 'object' && item !== null`); elements that are strings,
numbers, booleans or null are silently dropped without error. -/
theorem normalized_count_matches_object_count (freshIds : Nat → String)
    (data : List JsonValue) (idx : Nat) :
    (processedRecords freshIds data idx).length
      = (data.filter isObjectShaped).length := by
  induction data generalizing idx with
  | nil => rfl
  | cons v vs ih =>
    cases hv : isObjectShaped v <;>
      simp [processedRecords, List.filter_cons, hv, ih]

/-- C9: once strict parsing has failed, the repaired content is strictly
parsed exactly once — its success ingests the repaired value, its failure is
the terminal syntax error, and no further repair happens; in particular the
input `{"title":"A"}{"title":"B"}` is repaired (by joining the adjacent
`}{` boundary and wrapping in brackets) to `[{"title":"A"},{"title":"B"}]`
and ingested as two records. -/
theorem repair_retries_once (freshIds : Nat → String) (content : String)
    (h1 : jsonParse content = none) :
    (∀ v, jsonParse (fixContent content) = some v →
      processFileModel freshIds content = ingestData freshIds v) ∧
    (jsonParse (fixContent content) = none →
      processFileModel freshIds content
        = .error "Erro de sintaxe: O arquivo não é um JSON válido.") ∧
    fixContent json9Scenario = json9Repaired ∧
    processFileModel (fun n => Nat.repr n) json9Scenario
      = .ok [json9RecA, json9RecB] := by
  refine ⟨?_, ?_, rfl, rfl⟩
  · intro v hv
    unfold processFileModel
    rw [h1, hv]
  · intro hn
    unfold processFileModel
    rw [h1, hn]

/-- Witness for C9, instantiated at the two-bare-objects scenario input. -/
theorem repair_retries_once_witness :
    (∀ v, jsonParse (fixContent json9Scenario) = some v →
      processFileModel (fun n => Nat.repr n) json9Scenario
        = ingestData (fun n => Nat.repr n) v) ∧
    (jsonParse (fixContent json9Scenario) = none →
      processFileModel (fun n => Nat.repr n) json9Scenario
        = .error "Erro de sintaxe: O arquivo não é um JSON válido.") ∧
    fixContent json9Scenario = json9Repaired ∧
    processFileModel (fun n => Nat.repr n) json9Scenario
      = .ok [json9RecA, json9RecB] :=
  repair_retries_once (fun n => Nat.repr n) json9Scenario rfl

theorem collapse_props : ∀ (l : List Char),
    (List.Chain' (fun a b => ¬(isWsChar a = true ∧ isWsChar b = true))
        (collapseWsAux false l) ∧
      ∀ c ∈ collapseWsAux false l, isWsChar c = true → c = ' ') ∧
    (List.Chain' (fun a b => ¬(isWsChar a = true ∧ isWsChar b = true))
        (collapseWsAux true l) ∧
      (∀ c ∈ collapseWsAux true l, isWsChar c = true → c = ' ') ∧
      ∀ c, (collapseWsAux true l).head? = some c → isWsChar c = false) := by
  intro l
  induction l with
  | nil => simp [collapseWsAux]
  | cons x rest ih =>
    obtain ⟨⟨hfA, hfB⟩, htA, htB, htH⟩ := ih
    cases hx : isWsChar x with
    | true =>
      refine ⟨⟨?_, ?_⟩, ?_, ?_, ?_⟩ <;> simp +decide only [collapseWsAux, hx, if_true, if_false]
      · rw [List.chain'_cons']
        refine ⟨fun y hy hcon => ?_, htA⟩
        rw [htH y hy] at hcon
        exact Bool.false_ne_true hcon.2
      · intro d hd hdw
        rcases List.mem_cons.mp hd with rfl | hd'
        · rfl
        · exact htB d hd' hdw
      · exact htA
      · exact htB
      · exact htH
    | false =>
      refine ⟨⟨?_, ?_⟩, ?_, ?_, ?_⟩ <;> simp +decide only [collapseWsAux, hx, if_true, if_false]
      · rw [List.chain'_cons']
        refine ⟨fun y hy hcon => ?_, hfA⟩
        rw [hx] at hcon
        exact Bool.false_ne_true hcon.1
      · intro d hd hdw
        rcases List.mem_cons.mp hd with rfl | hd'
        · exact absurd hdw (by simp [hx])
        · exact hfB d hd' hdw
      · rw [List.chain'_cons']
        refine ⟨fun y hy hcon => ?_, hfA⟩
        rw [hx] at hcon
        exact Bool.false_ne_true hcon.1
      · intro d hd hdw
        rcases List.mem_cons.mp hd with rfl | hd'
        · exact absurd hdw (by simp [hx])
        · exact hfB d hd' hdw
      · intro d hd
        simp only [List.head?_cons, Option.some.injEq] at hd
        rw [← hd]
        exact hx

theorem replaceNbsp_of_spaced (l : List Char)
    (hB : ∀ c ∈ l, isWsChar c = true → c = ' ') : replaceNbsp l = l := by
  unfold replaceNbsp
  have hpt : ∀ c ∈ l, (if c.toNat = 0xa0 then ' ' else c) = c := by
    intro c hc
    by_cases h0 : c.toNat = 0xa0
    · have hws : isWsChar c = true := by simp [isWsChar, h0]
      have hsp := hB c hc hws
      rw [hsp] at h0
      exact absurd h0 (by decide)
    · rw [if_neg h0]
  calc l.map (fun c => if c.toNat = 0xa0 then ' ' else c)
      = l.map id := List.map_congr_left hpt
    _ = l := List.map_id l

theorem dropWhile_head_false (p : Char → Bool) :
    ∀ (l : List Char) (c : Char) (r : List Char),
      l.dropWhile p = c :: r → p c = false := by
  intro l
  induction l with
  | nil => intro c r h; simp [List.dropWhile] at h
  | cons x xs ih =>
    intro c r h
    rw [List.dropWhile_cons] at h
    by_cases hx : p x = true
    · rw [if_pos hx] at h
      exact ih c r h
    · rw [if_neg hx] at h
      cases h
      simpa using hx

theorem jsTrim_infix (l : List Char) : jsTrimChars l <:+: l := by
  unfold jsTrimChars
  have h1 : l.dropWhile isWsChar <:+ l := List.dropWhile_suffix _
  have h2 : (l.dropWhile isWsChar).reverse.dropWhile isWsChar
      <:+ (l.dropWhile isWsChar).reverse := List.dropWhile_suffix _
  have h3 : ((l.dropWhile isWsChar).reverse.dropWhile isWsChar).reverse
      <+: l.dropWhile isWsChar := by
    apply (@List.reverse_suffix Char
      (((l.dropWhile isWsChar).reverse.dropWhile isWsChar).reverse)
      (l.dropWhile isWsChar)).mp
    simpa [List.reverse_reverse] using h2
  exact h3.isInfix.trans h1.isInfix

theorem jsTrim_head_not_ws (l : List Char) (c : Char) (r : List Char)
    (h : jsTrimChars l = c :: r) : isWsChar c = false := by
  unfold jsTrimChars at h
  set d1 := l.dropWhile isWsChar with hd1
  set d2 := d1.reverse.dropWhile isWsChar with hd2
  have hne : d2 ≠ [] := by
    intro hnil
    rw [hnil] at h
    simp at h
  have hlast : d2.getLast? = some c := by
    rw [← List.head?_reverse, h]
    rfl
  have hsufx : d2 <:+ d1.reverse := List.dropWhile_suffix _
  obtain ⟨pre, hpre⟩ := hsufx
  have hlast2 : (d1.reverse).getLast? = some c := by
    rw [← hpre, List.getLast?_append_of_ne_nil pre hne, hlast]
  rw [List.getLast?_reverse] at hlast2
  cases hd : d1 with
  | nil => rw [hd] at hlast2; simp at hlast2
  | cons c0 r0 =>
    rw [hd] at hlast2
    simp only [List.head?_cons, Option.some.injEq] at hlast2
    have := dropWhile_head_false isWsChar l c0 r0 (by rw [← hd1, hd])
    rw [← hlast2]
    exact this

theorem jsTrim_last_not_ws (l : List Char) (c : Char)
    (h : (jsTrimChars l).getLast? = some c) : isWsChar c = false := by
  unfold jsTrimChars at h
  rw [List.getLast?_reverse] at h
  cases hd : (l.dropWhile isWsChar).reverse.dropWhile isWsChar with
  | nil => rw [hd] at h; simp at h
  | cons c0 r0 =>
    rw [hd] at h
    simp only [List.head?_cons, Option.some.injEq] at h
    have := dropWhile_head_false isWsChar (l.dropWhile isWsChar).reverse c0 r0 hd
    rw [← h]
    exact this

theorem splitOnPred_congr (p q : Char → Bool) :
    ∀ (l cur : List Char), (∀ c ∈ l, p c = q c) →
      splitOnPred p cur l = splitOnPred q cur l := by
  intro l
  induction l with
  | nil => intro cur _; rfl
  | cons c rest ih =>
    intro cur h
    have hc := h c (List.mem_cons_self _ _)
    have hrest := fun d hd => h d (List.mem_cons_of_mem _ hd)
    simp only [splitOnPred, hc]
    by_cases hq : q c = true <;> simp [hq, ih _ hrest, ih [] hrest]

theorem splitOnPred_nonempty (p : Char → Bool) :
    ∀ (l cur : List Char),
      List.Chain' (fun a b => ¬(p a = true ∧ p b = true)) l →
      (cur = [] → ∃ c cs', l = c :: cs' ∧ p c = false) →
      (∀ c, l.getLast? = some c → p c = false) →
      ∀ t ∈ splitOnPred p cur l, t ≠ [] := by
  intro l
  induction l with
  | nil =>
    intro cur _ hh _ t ht
    simp only [splitOnPred, List.mem_singleton] at ht
    subst ht
    intro hrev
    have hcur : cur = [] := by simpa using hrev
    obtain ⟨c, cs', hcontra, _⟩ := hh hcur
    simp at hcontra
  | cons c rest ih =>
    intro cur hA hh hl t ht
    simp only [splitOnPred] at ht
    by_cases hc : p c = true
    · rw [if_pos hc] at ht
      rcases List.mem_cons.mp ht with rfl | ht'
      · intro hrev
        have hcur : cur = [] := by simpa using hrev
        obtain ⟨c0, cs', heq, hpc0⟩ := hh hcur
        cases heq
        rw [hc] at hpc0
        simp at hpc0
      · refine ih [] hA.tail ?_ ?_ t ht'
        · intro _
          cases hrest : rest with
          | nil =>
            exfalso
            rw [hrest] at hl
            have hcl := hl c (by simp)
            rw [hc] at hcl
            simp at hcl
          | cons c1 rest1 =>
            refine ⟨c1, rest1, rfl, ?_⟩
            rw [hrest] at hA
            have hrel := (List.chain'_cons.mp hA).1
            by_cases h1 : p c1 = true
            · exact absurd ⟨hc, h1⟩ hrel
            · simpa using h1
        · intro d hd
          apply hl
          cases hrest : rest with
          | nil => rw [hrest] at hd; simp at hd
          | cons c1 rest1 =>
            rw [hrest] at hd
            rw [List.getLast?_cons_cons]
            exact hd
    · rw [if_neg hc] at ht
      refine ih (c :: cur) hA.tail ?_ ?_ t ht
      · intro hcontra
        simp at hcontra
      · intro d hd
        apply hl
        cases hrest : rest with
        | nil => rw [hrest] at hd; simp at hd
        | cons c1 rest1 =>
          rw [hrest] at hd
          rw [List.getLast?_cons_cons]
          exact hd

theorem cleaned_props (l2 : List Char) :
    List.Chain' (fun a b => ¬(isWsChar a = true ∧ isWsChar b = true))
      (jsTrimChars (collapseWsAux false l2)) ∧
    wordCount ⟨jsTrimChars (collapseWsAux false l2)⟩
      = (wsTokens (jsTrimChars (collapseWsAux false l2))).length := by
  obtain ⟨hA3, hB3⟩ := (collapse_props l2).1
  have htrimmed := jsTrim_infix (collapseWsAux false l2)
  have hchain0 := hA3.infix htrimmed
  refine ⟨hchain0, ?_⟩
  · have hBt : ∀ c ∈ jsTrimChars (collapseWsAux false l2), isWsChar c = true → c = ' ' :=
      fun c hc => hB3 c (htrimmed.subset hc)
    cases hts : jsTrimChars (collapseWsAux false l2) with
    | nil => decide
    | cons c r =>
      have hne : (⟨c :: r⟩ : String) ≠ "" := by simp [String.ext_iff]
      unfold wordCount
      rw [if_neg hne]
      change (splitOnPred (fun d => d = ' ') [] (c :: r)).length
        = (wsTokens (c :: r)).length
      have hcong : splitOnPred (fun d => d = ' ') [] (c :: r)
          = splitOnPred isWsChar [] (c :: r) := by
        apply splitOnPred_congr
        intro d hd
        by_cases hdw : isWsChar d = true
        · have hsp := hBt d (by rw [hts]; exact hd) hdw
          rw [hsp]
          decide
        · have hdf : isWsChar d = false := by simpa using hdw
          have hd' : d ≠ ' ' := fun hsp => hdw (by rw [hsp]; decide)
          simp [hd', hdf]
      rw [hcong]
      have hchain : List.Chain' (fun a b => ¬(isWsChar a = true ∧ isWsChar b = true))
          (c :: r) := by
        rw [← hts]
        exact hA3.infix htrimmed
      have hhead : isWsChar c = false :=
        jsTrim_head_not_ws (collapseWsAux false l2) c r hts
      have hnonempty := splitOnPred_nonempty isWsChar (c :: r) [] hchain
        (fun _ => ⟨c, r, rfl, hhead⟩)
        (fun d hd => jsTrim_last_not_ws (collapseWsAux false l2) d (by rw [hts]; exact hd))
      unfold wsTokens
      rw [List.filter_eq_self.mpr ?_]
      intro t ht
      have := hnonempty t ht
      simpa [List.isEmpty_iff] using this

/-- C7 counterexample: `text_clean` is not free of markup characters. A `<`
not followed by a tag-start character survives the DOM extraction as literal
text, and decoded character references reintroduce `<` — even tag-shaped
text — so the claim's "contains no markup" fails at these concrete
descriptions (while their whitespace is already normal). -/
theorem text_clean_markup_counterexample :
    cleanHtmlAndNormalize "a &lt; b" = "a < b" ∧
    '<' ∈ (cleanHtmlAndNormalize "a &lt; b").data ∧
    cleanHtmlAndNormalize "1<2 and 3>4" = "1<2 and 3>4" ∧
    '<' ∈ (cleanHtmlAndNormalize "1<2 and 3>4").data ∧
    cleanHtmlAndNormalize "&lt;b&gt;x&lt;/b&gt;" = "<b>x</b>" := by
  decide

/-- C7 amended: the normalized `text_clean` contains no run of more than one
consecutive whitespace character, and the stored `word_count` equals the
number of non-empty whitespace-delimited tokens of `text_clean` (0 when it
is empty); in particular
`[{"title":"A","description":"<p>Hello&nbsp;world</p>"}]` yields one record
with `text_clean = "Hello world"` and `word_count = 2`. (The markup tags of
the description are stripped, but `text_clean` may still contain literal
`<`/`>` characters — from non-tag uses or decoded references such as
`&lt;` — so it is not guaranteed markup-character-free.) -/
theorem text_clean_whitespace_word_count (s : String) :
    List.Chain' (fun a b => ¬(isWsChar a = true ∧ isWsChar b = true))
      (cleanHtmlAndNormalize s).data ∧
    wordCount (cleanHtmlAndNormalize s)
      = (wsTokens (cleanHtmlAndNormalize s).data).length ∧
    cleanHtmlAndNormalize "<p>Hello&nbsp;world</p>" = "Hello world" ∧
    wordCount "Hello world" = 2 ∧
    processedRecords (fun n => Nat.repr n)
      [.obj [("title", .str "A"), ("description", .str "<p>Hello&nbsp;world</p>")]] 0
      = [{ _id := "0", title := "A", community := "", author := "",
           text_clean := "Hello world", word_count := 2 }] := by
  have hB3 := ((collapse_props (decodeEntities (stripTagsAux false s.data))).1).2
  have hstr : cleanHtmlAndNormalize s
      = ⟨jsTrimChars (collapseWsAux false (decodeEntities (stripTagsAux false s.data)))⟩ := by
    show (⟨jsTrimChars (replaceNbsp _)⟩ : String) = _
    rw [replaceNbsp_of_spaced _ hB3]
  obtain ⟨h2, h3⟩ := cleaned_props (decodeEntities (stripTagsAux false s.data))
  rw [hstr]
  exact ⟨h2, h3, rfl, rfl, rfl⟩


theorem csvScan_false_nil (rows : List (List String)) (fields : List String)
    (cur : List Char) :
    csvScan rows fields cur false []
      = some ((((⟨cur.reverse⟩ : String) :: fields).reverse :: rows).reverse) := rfl

theorem csvScan_true_step (rows : List (List String)) (fields : List String)
    (cur : List Char) (c : Char) (rest : List Char) (hc : c ≠ '"') :
    csvScan rows fields cur true (c :: rest)
      = csvScan rows fields (c :: cur) true rest := by
  rw [csvScan.eq_def]
  simp [hc]

theorem csvScan_true_pair (rows : List (List String)) (fields : List String)
    (cur : List Char) (rest : List Char) :
    csvScan rows fields cur true ('"' :: '"' :: rest)
      = csvScan rows fields ('"' :: cur) true rest := by
  rw [csvScan.eq_def]
  simp

theorem csvScan_true_close (rows : List (List String)) (fields : List String)
    (cur : List Char) (rest : List Char) (hne : rest.head? ≠ some '"') :
    csvScan rows fields cur true ('"' :: rest)
      = csvScan rows fields cur false rest := by
  rw [csvScan.eq_def]
  cases rest with
  | nil => simp
  | cons r2 rr =>
    have hr2 : r2 ≠ '"' := by
      intro h
      exact hne (by simp [h])
    simp [hr2]

theorem csvScan_false_comma (rows : List (List String)) (fields : List String)
    (cur : List Char) (rest : List Char) :
    csvScan rows fields cur false (',' :: rest)
      = csvScan rows ((⟨cur.reverse⟩ : String) :: fields) [] false rest := by
  rw [csvScan.eq_def]
  simp

theorem csvScan_false_newline (rows : List (List String)) (fields : List String)
    (cur : List Char) (rest : List Char) :
    csvScan rows fields cur false ('\n' :: rest)
      = csvScan ((((⟨cur.reverse⟩ : String)) :: fields).reverse :: rows) [] [] false rest := by
  rw [csvScan.eq_def]
  simp +decide

theorem csvScan_false_open (rows : List (List String)) (fields : List String)
    (cur : List Char) (rest : List Char) :
    csvScan rows fields cur false ('"' :: rest)
      = csvScan rows fields cur true rest := by
  rw [csvScan.eq_def]
  simp +decide

theorem csvScan_false_step (rows : List (List String)) (fields : List String)
    (cur : List Char) (c : Char) (rest : List Char)
    (hc1 : c ≠ ',') (hc2 : c ≠ '\n') (hc3 : c ≠ '"') :
    csvScan rows fields cur false (c :: rest)
      = csvScan rows fields (c :: cur) false rest := by
  rw [csvScan.eq_def]
  simp [hc1, hc2, hc3]

theorem csvScan_quoted (content : List Char) :
    ∀ (rows : List (List String)) (fields : List String) (cur rest : List Char),
      rest.head? ≠ some '"' →
      csvScan rows fields cur true (escapeQuotes content ++ '"' :: rest)
        = csvScan rows fields (content.reverse ++ cur) false rest := by
  induction content with
  | nil =>
    intro rows fields cur rest hrest
    simpa [escapeQuotes] using csvScan_true_close rows fields cur rest hrest
  | cons c cs ih =>
    intro rows fields cur rest hrest
    by_cases hc : c = '"'
    · subst hc
      simp +decide only [escapeQuotes, if_true, List.cons_append]
      rw [csvScan_true_pair, ih rows fields ('"' :: cur) rest hrest]
      simp
    · simp only [escapeQuotes, if_neg hc, List.cons_append]
      rw [csvScan_true_step rows fields cur c _ hc,
        ih rows fields (c :: cur) rest hrest]
      simp

theorem csvScan_cell (s : String) (rows : List (List String)) (fields : List String)
    (rest : List Char) (hrest : rest.head? ≠ some '"') :
    csvScan rows fields [] false (csvCell s ++ rest)
      = csvScan rows fields s.data.reverse false rest := by
  unfold csvCell
  rw [show ('"' :: (escapeQuotes s.data ++ ['"'])) ++ rest
      = '"' :: (escapeQuotes s.data ++ '"' :: rest) from by simp]
  rw [csvScan_false_open, csvScan_quoted s.data rows fields [] rest hrest]
  simp

theorem mk_reverse_reverse (s : String) : (⟨s.data.reverse.reverse⟩ : String) = s := by
  rw [List.reverse_reverse]

theorem csvScan_row_newline :
    ∀ (fs : List String) (f : String) (accRows : List (List String))
      (accFields : List String) (rest2 : List Char),
      csvScan accRows accFields [] false (csvRowChars (f :: fs) ++ '\n' :: rest2)
        = csvScan ((accFields.reverse ++ f :: fs) :: accRows) [] [] false rest2 := by
  intro fs
  induction fs with
  | nil =>
    intro f accRows accFields rest2
    show csvScan accRows accFields [] false (csvCell f ++ '\n' :: rest2) = _
    rw [csvScan_cell f _ _ _ (by simp), csvScan_false_newline, mk_reverse_reverse]
    simp
  | cons f2 fs' ih =>
    intro f accRows accFields rest2
    show csvScan accRows accFields [] false
      ((csvCell f ++ ',' :: csvRowChars (f2 :: fs')) ++ '\n' :: rest2) = _
    rw [show (csvCell f ++ ',' :: csvRowChars (f2 :: fs')) ++ '\n' :: rest2
        = csvCell f ++ ',' :: (csvRowChars (f2 :: fs') ++ '\n' :: rest2) from by simp]
    rw [csvScan_cell f _ _ _ (by simp), csvScan_false_comma, mk_reverse_reverse,
      ih f2 accRows (f :: accFields) rest2]
    simp

theorem csvScan_row_end :
    ∀ (fs : List String) (f : String) (accRows : List (List String))
      (accFields : List String),
      csvScan accRows accFields [] false (csvRowChars (f :: fs))
        = some (((accFields.reverse ++ f :: fs) :: accRows).reverse) := by
  intro fs
  induction fs with
  | nil =>
    intro f accRows accFields
    show csvScan accRows accFields [] false (csvCell f) = _
    rw [show csvCell f = csvCell f ++ [] from by simp]
    rw [csvScan_cell f _ _ _ (by simp), csvScan_false_nil, mk_reverse_reverse]
    simp
  | cons f2 fs' ih =>
    intro f accRows accFields
    show csvScan accRows accFields [] false
      (csvCell f ++ ',' :: csvRowChars (f2 :: fs')) = _
    rw [csvScan_cell f _ _ _ (by simp), csvScan_false_comma, mk_reverse_reverse,
      ih f2 accRows (f :: accFields)]
    simp

theorem csvScan_rows :
    ∀ (rowsData : List (List String)) (accRows : List (List String)),
      rowsData ≠ [] → (∀ row ∈ rowsData, row ≠ []) →
      csvScan accRows [] [] false (joinRowsWithNewline (rowsData.map csvRowChars))
        = some ((rowsData.reverse ++ accRows).reverse) := by
  intro rowsData
  induction rowsData with
  | nil => intro accRows h _; exact absurd rfl h
  | cons r rs ih =>
    intro accRows _ hne
    cases rs with
    | nil =>
      obtain ⟨f, fs, hr⟩ := List.exists_cons_of_ne_nil (hne r (by simp))
      subst hr
      show csvScan accRows [] [] false (csvRowChars (f :: fs)) = _
      rw [csvScan_row_end]
      simp
    | cons r2 rs' =>
      obtain ⟨f, fs, hr⟩ := List.exists_cons_of_ne_nil (hne r (by simp))
      subst hr
      show csvScan accRows [] [] false
        (csvRowChars (f :: fs) ++ '\n' ::
          joinRowsWithNewline ((r2 :: rs').map csvRowChars)) = _
      rw [csvScan_row_newline]
      rw [show (([] : List String).reverse ++ f :: fs) = f :: fs from by simp]
      rw [ih ((f :: fs) :: accRows) (by simp)
        (fun row hrow => hne row (List.mem_cons_of_mem _ hrow))]
      simp

theorem csvScan_unquoted (content : List Char)
    (hok : ∀ c ∈ content, c ≠ '"' ∧ c ≠ ',' ∧ c ≠ '\n') :
    ∀ (rows : List (List String)) (fields : List String) (cur rest : List Char),
      csvScan rows fields cur false (content ++ rest)
        = csvScan rows fields (content.reverse ++ cur) false rest := by
  induction content with
  | nil => intro rows fields cur rest; simp
  | cons c cs ih =>
    intro rows fields cur rest
    obtain ⟨h1, h2, h3⟩ := hok c (List.mem_cons_self _ _)
    rw [List.cons_append, csvScan_false_step rows fields cur c _ h2 h3 h1]
    rw [ih (fun d hd => hok d (List.mem_cons_of_mem _ hd)) rows fields (c :: cur) rest]
    simp

theorem csvScan_header :
    ∀ (names : List String) (f : String) (accRows : List (List String))
      (accFields : List String) (rest2 : List Char),
      (∀ n ∈ f :: names, ∀ c ∈ n.data, c ≠ '"' ∧ c ≠ ',' ∧ c ≠ '\n') →
      csvScan accRows accFields [] false
          (joinWithComma ((f :: names).map String.data) ++ '\n' :: rest2)
        = csvScan ((accFields.reverse ++ f :: names) :: accRows) [] [] false rest2 := by
  intro names
  induction names with
  | nil =>
    intro f accRows accFields rest2 hok
    show csvScan accRows accFields [] false (f.data ++ '\n' :: rest2) = _
    rw [csvScan_unquoted f.data (hok f (by simp)) accRows accFields [] _]
    rw [List.append_nil, csvScan_false_newline, mk_reverse_reverse]
    simp
  | cons f2 names' ih =>
    intro f accRows accFields rest2 hok
    show csvScan accRows accFields [] false
      ((f.data ++ ',' :: joinWithComma ((f2 :: names').map String.data))
        ++ '\n' :: rest2) = _
    rw [show (f.data ++ ',' :: joinWithComma ((f2 :: names').map String.data))
          ++ '\n' :: rest2
        = f.data ++ ',' :: (joinWithComma ((f2 :: names').map String.data)
          ++ '\n' :: rest2) from by simp]
    rw [csvScan_unquoted f.data (hok f (by simp)) accRows accFields [] _]
    rw [List.append_nil, csvScan_false_comma, mk_reverse_reverse]
    rw [ih f2 accRows (f :: accFields) rest2
      (fun n hn => hok n (List.mem_cons_of_mem _ hn))]
    simp

/-- C8: the CSV export emits the fixed column order (title, community,
author, text_clean, word_count, the six dimensions, quality score, comment,
status — `csvHeaders`/`csvFieldsOf`), wraps every data field in double
quotes with embedded double quotes doubled, so that parsing the output under
standard quoted-CSV rules reproduces the header row and every field's
original stringified value (missing fields as the empty string); an empty
input sequence yields empty output with no header-only row. -/
theorem csv_export_roundtrip (numToStr : ℚ → String) (data : List CleanedRecord)
    (h : data ≠ []) :
    convertToCsv numToStr [] = "" ∧
    parseCsv (convertToCsv numToStr data)
      = some (csvHeaders :: data.map (csvFieldsOf numToStr)) := by
  refine ⟨rfl, ?_⟩
  obtain ⟨r0, rs, rfl⟩ := List.exists_cons_of_ne_nil h
  unfold parseCsv convertToCsv
  rw [if_neg (by simp)]
  show csvScan [] [] [] false
    (joinWithComma (csvHeaders.map String.data) ++ '\n' ::
      joinRowsWithNewline (csvRowChars (csvFieldsOf numToStr r0) ::
        rs.map (fun row => csvRowChars (csvFieldsOf numToStr row)))) = _
  rw [show (csvHeaders : List String) = "title" :: ["community", "author",
    "text_clean", "word_count", "clareza", "empatia", "coerencia", "formalidade",
    "eficacia", "linguistica", "QualityScore", "comentario", "status"] from rfl]
  rw [csvScan_header _ _ _ _ _ (by decide)]
  rw [show ((([] : List String).reverse ++ "title" :: ["community", "author",
    "text_clean", "word_count", "clareza", "empatia", "coerencia", "formalidade",
    "eficacia", "linguistica", "QualityScore", "comentario", "status"]) : List String)
    = csvHeaders from rfl]
  rw [show (csvRowChars (csvFieldsOf numToStr r0) ::
        rs.map (fun row => csvRowChars (csvFieldsOf numToStr row)))
      = ((r0 :: rs).map (csvFieldsOf numToStr)).map csvRowChars from by
    simp [List.map_map]]
  rw [csvScan_rows ((r0 :: rs).map (csvFieldsOf numToStr)) [csvHeaders]
    (by simp) ?_]
  · simp [csvHeaders]
  · intro row hrow
    obtain ⟨r', _, rfl⟩ := List.mem_map.mp hrow
    simp [csvFieldsOf]

/-- Witness for C8 at a concrete one-record export. -/
theorem csv_export_roundtrip_witness :
    convertToCsv (fun _ => "0") [] = "" ∧
    parseCsv (convertToCsv (fun _ => "0") [pendingOf sampleRec])
      = some (csvHeaders ::
          [pendingOf sampleRec].map (csvFieldsOf (fun _ => "0"))) :=
  csv_export_roundtrip (fun _ => "0") [pendingOf sampleRec]
    (List.cons_ne_nil _ _)
